import Mathlib

/-!
Verification development for the PrompTab placeholder/variable engine.

Text is modelled as `List Char` (JS strings; all relevant operations are
index-based, so code-unit subtleties do not arise for the properties below).
Nondeterministic inputs of the source (`crypto.randomUUID()`, `Date.now()`)
are passed as explicit parameters.  Asynchronous persistence is modelled by
an explicit adapter-outcome parameter.
-/

/-- JS string, modelled as its character list. -/
abbrev Str := List Char

/-- The `\x7b` character (open curly brace). -/
def lbrace : Char := Char.ofNat 123

/-- The `\x7d` character (close curly brace). -/
def rbrace : Char := Char.ofNat 125

/-- The backquote character, used in JS `$`-substitution escapes. -/
def backquoteChar : Char := Char.ofNat 96

/-- The single-quote character, used in JS `$`-substitution escapes. -/
def singleQuoteChar : Char := Char.ofNat 39

/-! ## Variable store (src/frontend/src/utils/errorHandler.ts, storage part)

`UserVariable` mirrors the `UserVariable` interface; the persisted collection
under the `user_variables` key is a `List UserVariable`. -/

/-- `UserVariable` from errorHandler.ts: id, name, value, optional
description and category, and a numeric timestamp. -/
structure UserVariable where
  id : Str
  name : Str
  value : Str
  description : Option Str
  category : Option Str
  timestamp : Nat
deriving DecidableEq

/-- The argument of `addUserVariable`: `Omit<UserVariable, 'id' | 'timestamp'>`. -/
structure VariableInput where
  name : Str
  value : Str
  description : Option Str
  category : Option Str
deriving DecidableEq

/-- `addUserVariable` (errorHandler.ts lines 350-370), the pure collection
transformation: build `newVariable` from the input plus a freshly generated
id and the current time; if a variable with the same name exists
(`findIndex(v => v.name === variable.name)`), overwrite that slot, otherwise
push the new variable; return the updated collection and the new variable. -/
def addUserVariable (vars : List UserVariable) (input : VariableInput)
    (freshId : Str) (now : Nat) : List UserVariable × UserVariable :=
  let newVariable : UserVariable :=
    { id := freshId, name := input.name, value := input.value,
      description := input.description, category := input.category,
      timestamp := now }
  match vars.findIdx? (fun v => v.name == input.name) with
  | some existingIndex => (vars.set existingIndex newVariable, newVariable)
  | none => (vars ++ [newVariable], newVariable)

/-- `updateUserVariable` (errorHandler.ts lines 372-383): find the variable
with the given id; if present, replace it with the input refreshed to the
current time and persist; if absent, return the input unchanged without
touching the collection. -/
def updateUserVariable (vars : List UserVariable) (uv : UserVariable)
    (now : Nat) : List UserVariable × UserVariable :=
  match vars.findIdx? (fun v => v.id == uv.id) with
  | some index =>
      let updatedVariable : UserVariable := { uv with timestamp := now }
      (vars.set index updatedVariable, updatedVariable)
  | none => (vars, uv)

/-- `removeUserVariable` (errorHandler.ts lines 385-389): keep the variables
whose id differs from the given one. -/
def removeUserVariable (vars : List UserVariable) (id : Str) :
    List UserVariable :=
  vars.filter (fun v => v.id != id)

/-- One mutating call of the variable store, with the nondeterministic
inputs (fresh id, clock) made explicit. -/
inductive StoreOp where
  | add (input : VariableInput) (freshId : Str) (now : Nat)
  | update (uv : UserVariable) (now : Nat)
  | remove (id : Str)

/-- Effect of one store operation on the persisted collection. -/
def applyStoreOp (vars : List UserVariable) : StoreOp → List UserVariable
  | .add input freshId now => (addUserVariable vars input freshId now).1
  | .update uv now => (updateUserVariable vars uv now).1
  | .remove id => removeUserVariable vars id

/-- The persisted collection after a sequence of store operations starting
from the empty collection. -/
def runStoreOps (ops : List StoreOp) : List UserVariable :=
  ops.foldl applyStoreOp []

/-- Whether a store operation is an `updateUserVariable` call. -/
def StoreOp.isUpdate : StoreOp → Bool
  | .update _ _ => true
  | _ => false

/-! ## Persistence adapter (errorHandler.ts, `safeBrowser` wrapper) -/

/-- Outcome of one raw `browser.storage.local` call: either a value or a
thrown error (also covering the storage API being unavailable, for `get`). -/
inductive AdapterResult (α : Type) where
  | ok (value : α)
  | failure
deriving DecidableEq

/-- `safeBrowser.storage.local.get` for the variables key (errorHandler.ts
lines 127-138): a raw failure (or unavailable storage) is caught and turned
into the empty result `\x7b\x7d`, i.e. an absent key. -/
def safeStorageGet (raw : AdapterResult (Option (List UserVariable))) :
    Option (List UserVariable) :=
  match raw with
  | .ok value => value
  | .failure => none

/-- `safeBrowser.storage.local.set` (errorHandler.ts lines 139-150): a raw
failure is logged and re-thrown. -/
def safeStorageSet (raw : AdapterResult Unit) : Except Unit Unit :=
  match raw with
  | .ok _ => .ok ()
  | .failure => .error ()

/-- `getUserVariables` (errorHandler.ts lines 340-348): read the collection
through the safe wrapper, defaulting an absent value to `[]`.  (The
surrounding try/catch never fires, because the safe wrapper already catches
the raw error.) -/
def getUserVariables (raw : AdapterResult (Option (List UserVariable))) :
    List UserVariable :=
  (safeStorageGet raw).getD []

/-- `addUserVariable` including its persistence round trip: read the current
collection (through the failure-swallowing read path), apply the pure
upsert, then write the whole collection back; a write failure propagates to
the caller as a thrown error. -/
def addUserVariableStored (getRaw : AdapterResult (Option (List UserVariable)))
    (setRaw : AdapterResult Unit) (input : VariableInput) (freshId : Str)
    (now : Nat) : Except Unit (List UserVariable × UserVariable) :=
  let vars := getUserVariables getRaw
  let result := addUserVariable vars input freshId now
  match safeStorageSet setRaw with
  | .ok _ => .ok result
  | .error e => .error e

/-! ## Recent-prompt ring buffer (errorHandler.ts lines 282-302) -/

/-- `RecentPrompt` from errorHandler.ts. -/
structure RecentPrompt where
  id : Str
  original : Str
  optimized : Str
  timestamp : Nat
deriving DecidableEq

/-- The argument of `addRecentPrompt`: `Omit<RecentPrompt, 'id' | 'timestamp'>`. -/
structure RecentPromptInput where
  original : Str
  optimized : Str
deriving DecidableEq

/-- The new entry built by `addRecentPrompt` from its input, a fresh id and
the current time. -/
def mkRecentPrompt (input : RecentPromptInput) (freshId : Str) (now : Nat) :
    RecentPrompt :=
  { id := freshId, original := input.original, optimized := input.optimized,
    timestamp := now }

/-- `addRecentPrompt` (errorHandler.ts lines 287-298), the pure list
transformation: prepend the new entry and keep only the first 20. -/
def addRecentPrompt (recent : List RecentPrompt) (input : RecentPromptInput)
    (freshId : Str) (now : Nat) : List RecentPrompt :=
  (mkRecentPrompt input freshId now :: recent).take 20

/-- A sequence of `addRecentPrompt` calls, each with its explicit fresh id
and timestamp. -/
def addRecentPrompts (recent : List RecentPrompt) :
    List (RecentPromptInput × Str × Nat) → List RecentPrompt
  | [] => recent
  | a :: rest => addRecentPrompts (addRecentPrompt recent a.1 a.2.1 a.2.2) rest

/-! ## Bracket placeholder parser (src/frontend/src/popup/index.tsx lines 386-403)

`parseVariablesFromText` scans with the sticky regex `\[([^\]]+)\]` using
`regex.exec` in a loop: at each position, a match needs `[`, then a
non-empty maximal run of non-`]` characters, then `]`; the name is that run
(the nearest following `]` closes it).  On a match the scan resumes after
the match; otherwise it advances one position. -/

/-- A parsed bracket occurrence: `\x7b name, start, end \x7d` in the source;
`end` is a Lean keyword, so the field is called `stop`. -/
structure BracketOccurrence where
  name : Str
  start : Nat
  stop : Nat
deriving DecidableEq

/-- The characters of `l` strictly before its first `]`, or `none` when `l`
contains no `]` (the regex fragment `([^\]]+)\]` before checking
non-emptiness). -/
def upToCloseBracket : Str → Option Str
  | [] => none
  | c :: rest => if c = ']' then some [] else (upToCloseBracket rest).map (fun p => c :: p)

/-- Regex scan of `parseVariablesFromText`, with explicit fuel so that the
recursion is structural (the fuel is always at least the remaining text
length, see `bracketScanFuel_congr`); `i` is the offset of the remaining
text inside the full text. -/
def bracketScanFuel : Nat → Str → Nat → List BracketOccurrence
  | 0, _, _ => []
  | _, [], _ => []
  | fuel + 1, c :: rest, i =>
    if c = '[' then
      match upToCloseBracket rest with
      | some name =>
        if name = [] then bracketScanFuel fuel rest (i + 1)
        else
          { name := name, start := i, stop := i + name.length + 2 } ::
            bracketScanFuel fuel (rest.drop (name.length + 1)) (i + name.length + 2)
      | none => bracketScanFuel fuel rest (i + 1)
    else bracketScanFuel fuel rest (i + 1)

/-- `parseVariablesFromText` (popup/index.tsx lines 386-403). -/
def parseVariablesFromText (text : Str) : List BracketOccurrence :=
  bracketScanFuel text.length text 0

/-- Shift a bracket occurrence's offsets by `i` (the occurrences of a suffix
of the text, re-expressed as offsets into the whole text). -/
def shiftOcc (i : Nat) (o : BracketOccurrence) : BracketOccurrence :=
  { o with start := o.start + i, stop := o.stop + i }

/-! ## InteractiveText rendering (popup/index.tsx lines 405-470)

The component renders, in order: the text between the previous occurrence's
end (`lastIndex`) and the next occurrence's start (only when non-empty),
then the clickable label `[` + name + `]`, and finally the remaining text
after the last occurrence (only when non-empty).  Concatenating the rendered
chunks gives back the displayed text. -/

/-- The text chunks rendered by `InteractiveText` for a given occurrence
list, starting from `lastIndex`; `text.substring(a, b)` is
`(text.take b).drop a` for `a ≤ b`. -/
def interactiveChunks (text : Str) : List BracketOccurrence → Nat → List Str
  | [], lastIndex => if lastIndex < text.length then [text.drop lastIndex] else []
  | o :: rest, lastIndex =>
    (if lastIndex < o.start then [(text.take o.start).drop lastIndex] else []) ++
      ('[' :: o.name ++ [']']) :: interactiveChunks text rest o.stop

/-- The full text rendered by `InteractiveText`: the text itself when no
occurrence is found, otherwise the concatenation of the rendered chunks. -/
def interactiveTextRender (text : Str) : Str :=
  let vars := parseVariablesFromText text
  if vars = [] then text
  else (interactiveChunks text vars 0).foldr (fun a b => a ++ b) []

/-! ## Replacement flow (popup/index.tsx lines 869-938) -/

/-- The text update of `handleReplaceVariable` (popup/index.tsx lines
908-911): `originalText.substring(0, position.start) + replacementValue +
originalText.substring(position.end)`.  For the in-range offsets produced by
the parser, JS `substring` is exactly take/drop. -/
def replaceVariableInText (text : Str) (start stop : Nat)
    (replacementValue : Str) : Str :=
  text.take start ++ replacementValue ++ text.drop stop

/-- The `variableReplaceDialog` state captured at selection time
(`handleVariableClick`); `open` is a Lean keyword, so the field is called
`isOpen`. -/
structure VariableReplaceDialog where
  isOpen : Bool
  variableName : Str
  currentValue : Str
  positionStart : Nat
  positionStop : Nat
deriving DecidableEq

/-- The reset dialog state written on close. -/
def closedDialog : VariableReplaceDialog :=
  { isOpen := false, variableName := [], currentValue := [],
    positionStart := 0, positionStop := 0 }

/-- The popup state touched by `handleReplaceVariable`: the optimized text
(`optimizationResult?.optimized`), the persisted variable collection, and
the replacement dialog. -/
structure PopupState where
  optimizedText : Option Str
  storedVariables : List UserVariable
  dialog : VariableReplaceDialog
deriving DecidableEq

/-- `handleReplaceVariable` (popup/index.tsx lines 884-927): a no-op without
an optimization result; otherwise, with `useExisting` and a selected
variable the replacement value is that variable's stored value and the store
is not written; otherwise `addUserVariable` is called with the dialog's name
and current value (description `Variable for <name>`, category `general`)
and the replacement value is the new variable's value.  The text at
`[positionStart, positionStop)` is then replaced and the dialog closed. -/
def handleReplaceVariable (st : PopupState) (useExisting : Bool)
    (selectedVariable : Option UserVariable) (freshId : Str) (now : Nat) :
    PopupState :=
  match st.optimizedText with
  | none => st
  | some originalText =>
    let result :=
      match useExisting, selectedVariable with
      | true, some sv => (sv.value, st.storedVariables)
      | _, _ =>
        let added := addUserVariable st.storedVariables
          { name := st.dialog.variableName, value := st.dialog.currentValue,
            description := some ("Variable for ".toList ++ st.dialog.variableName),
            category := some "general".toList } freshId now
        (added.2.value, added.1)
    let updatedText := replaceVariableInText originalText
      st.dialog.positionStart st.dialog.positionStop result.1
    { optimizedText := some updatedText, storedVariables := result.2,
      dialog := closedDialog }

/-! ## Mustache parsing and preview
(src/frontend/src/components/PromptWithVariables.tsx)

The component parses `\x7b\x7bname\x7d\x7d` occurrences with the regex
`\{\{([^}]+)\}\}` and generates the preview by, for each occurrence whose
trimmed name matches a variable with a truthy `default_value`, replacing the
first occurrence of the normalized placeholder string in the accumulating
preview (JS `String.prototype.replace` with a string pattern). -/

/-- `Variable` from src/frontend/src/types/index.ts (the backend-synced
variable record used by `PromptWithVariables`). -/
structure Variable where
  id : Str
  name : Str
  description : Option Str
  default_value : Option Str
  category_id : Option Str
  user_id : Str
  created_at : Str
  updated_at : Str
deriving DecidableEq

/-- A raw mustache regex match: the captured text between the double braces
(not yet trimmed) and the match's half-open span. -/
structure MustacheMatch where
  rawName : Str
  startIndex : Nat
  endIndex : Nat
deriving DecidableEq

/-- Split `l` at its first `\x7d`: the (possibly empty) run of non-`\x7d`
characters and the remainder after that `\x7d`; `none` when `l` has no
`\x7d`. -/
def splitAtCloseBrace : Str → Option (Str × Str)
  | [] => none
  | c :: rest =>
    if c = rbrace then some ([], rest)
    else (splitAtCloseBrace rest).map (fun p => (c :: p.1, p.2))

/-- One attempt of the regex `\{\{([^}]+)\}\}` at the current position:
`some (name, post2)` when the text starts with `\x7b\x7b`, then the
(non-empty, maximal) captured run `name` of non-`\x7d` characters, then
`\x7d\x7d`, with `post2` the text after the match; `none` when the attempt
fails at this position. -/
def mustacheHead : Str → Option (Str × Str)
  | c :: c2 :: rest2 =>
    if c = lbrace then
      if c2 = lbrace then
        match splitAtCloseBrace rest2 with
        | some (name, post) =>
          if name = [] then none
          else
            match post with
            | p :: post2 => if p = rbrace then some (name, post2) else none
            | [] => none
        | none => none
      else none
    else none
  | _ => none

/-- The `regex.exec` loop of the mustache scan, with explicit fuel (always
at least the remaining length): attempt the regex at the current position;
on a match record it and resume after it, otherwise advance one position. -/
def mustacheScanFuel : Nat → Str → Nat → List MustacheMatch
  | 0, _, _ => []
  | _, [], _ => []
  | fuel + 1, c :: rest, i =>
    match mustacheHead (c :: rest) with
    | some np =>
      { rawName := np.1, startIndex := i, endIndex := i + np.1.length + 4 } ::
        mustacheScanFuel fuel np.2 (i + np.1.length + 4)
    | none => mustacheScanFuel fuel rest (i + 1)

/-- All matches of the mustache regex over `text`, in scan order. -/
def parseMustache (text : Str) : List MustacheMatch :=
  mustacheScanFuel text.length text 0

/-- The whitespace class trimmed by JS `String.prototype.trim`. -/
def isTrimmedWhitespace (c : Char) : Bool :=
  c.toNat == 9 || c.toNat == 10 || c.toNat == 11 || c.toNat == 12 ||
    c.toNat == 13 || c.toNat == 32 || c.toNat == 160 || c.toNat == 0x1680 ||
    (0x2000 ≤ c.toNat && c.toNat ≤ 0x200A) || c.toNat == 0x2028 ||
    c.toNat == 0x2029 || c.toNat == 0x202F || c.toNat == 0x205F ||
    c.toNat == 0x3000 || c.toNat == 0xFEFF

/-- JS `String.prototype.trim`. -/
def trimString (s : Str) : Str :=
  ((s.dropWhile isTrimmedWhitespace).reverse.dropWhile isTrimmedWhitespace).reverse

/-- JS `String.prototype.indexOf` for a string needle: the first index where
`pat` is a prefix of the remaining text. -/
def firstIndexOf : Str → Str → Option Nat
  | [], pat => if pat = [] then some 0 else none
  | c :: rest, pat =>
    if pat.isPrefixOf (c :: rest) then some 0
    else (firstIndexOf rest pat).map (fun n => n + 1)

/-- JS `GetSubstitution` for a string pattern: `$`-escape processing of the
replacement string (`$$`, `$&`, `$` + backquote, `$` + single quote; an
unrecognized `$` stays literal). `m` is the matched string, `pre` the text
before the match, `post` the text after it. -/
def getSubstitution : Str → Str → Str → Str → Str
  | [], _, _, _ => []
  | c :: rest, m, pre, post =>
    if c = '$' then
      match rest with
      | [] => ['$']
      | c2 :: rest2 =>
        if c2 = '$' then '$' :: getSubstitution rest2 m pre post
        else if c2 = '&' then m ++ getSubstitution rest2 m pre post
        else if c2 = backquoteChar then pre ++ getSubstitution rest2 m pre post
        else if c2 = singleQuoteChar then post ++ getSubstitution rest2 m pre post
        else '$' :: getSubstitution (c2 :: rest2) m pre post
    else c :: getSubstitution rest m pre post

/-- JS `s.replace(pat, replacement)` with a string pattern: replace the
first occurrence of `pat` (with `$`-substitution of the replacement), or
return `s` unchanged when `pat` does not occur. -/
def replaceFirst (s pat replacement : Str) : Str :=
  match firstIndexOf s pat with
  | none => s
  | some i =>
    s.take i ++
      getSubstitution replacement pat (s.take i) (s.drop (i + pat.length)) ++
      s.drop (i + pat.length)

/-- Whether a found variable's `default_value` is truthy in JS
(`variable && variable.default_value`): present and non-empty. -/
def truthyDefault (v : Variable) : Bool :=
  match v.default_value with
  | some dv => !dv.isEmpty
  | none => false

/-- Preview generation of `PromptWithVariables` (lines 115-138): iterate the
mustache matches of `value` (the regex runs over `value`, not over the
accumulating preview); skip matches whose trimmed name is empty; for a match
whose trimmed name equals some variable's name (`find`), when that
variable's `default_value` is truthy, replace the first occurrence of the
normalized placeholder `\x7b\x7b` + name + `\x7d\x7d` in the accumulating
preview with the `default_value`. -/
def generatePreview (value : Str) (vars : List Variable) : Str :=
  (parseMustache value).foldl
    (fun preview m =>
      let variableName := trimString m.rawName
      if variableName = [] then preview
      else
        match vars.find? (fun v => v.name == variableName) with
        | some found =>
          match found.default_value with
          | some dv =>
            if dv = [] then preview
            else
              replaceFirst preview
                (lbrace :: lbrace :: variableName ++ [rbrace, rbrace]) dv
          | none => preview
        | none => preview)
    value

/-- One fold step of the preview generation of `PromptWithVariables` (the
body of the while loop acting on the accumulating preview). -/
def previewStep (vars : List Variable) (preview : Str) (m : MustacheMatch) :
    Str :=
  let variableName := trimString m.rawName
  if variableName = [] then preview
  else
    match vars.find? (fun v => v.name == variableName) with
    | some found =>
      match found.default_value with
      | some dv =>
        if dv = [] then preview
        else
          replaceFirst preview
            (lbrace :: lbrace :: variableName ++ [rbrace, rbrace]) dv
      | none => preview
    | none => preview

/-- A text made of alternating bracket-free segments and well-formed bracket
placeholders: each pair contributes its plain segment followed by
`[` + name + `]`, and `final` is the trailing segment. -/
def buildText : List (Str × Str) → Str → Str
  | [], final => final
  | seg :: rest, final => seg.1 ++ '[' :: seg.2 ++ ']' :: buildText rest final

/-- Shift a mustache match's offsets by `i`. -/
def mshiftOcc (i : Nat) (m : MustacheMatch) : MustacheMatch :=
  { m with startIndex := m.startIndex + i, endIndex := m.endIndex + i }

/-- The variable record built by `addUserVariable` from its input, a fresh
id and the current time. -/
def mkUserVariable (input : VariableInput) (freshId : Str) (now : Nat) :
    UserVariable :=
  { id := freshId, name := input.name, value := input.value,
    description := input.description, category := input.category,
    timestamp := now }

/-- The 21st concrete addition of the C4 witness. -/
def ringWitnessFirst : RecentPromptInput × Str × Nat :=
  (⟨"o".toList, "p".toList⟩, "z".toList, 100)

/-- Twenty concrete later additions with distinct fresh ids for the C4
witness. -/
def ringWitnessRest : List (RecentPromptInput × Str × Nat) :=
  (List.range 20).map
    (fun k => (⟨"o".toList, "p".toList⟩, [Char.ofNat (65 + k)], k))

/-- The parser soundness invariant: every reported occurrence has a
non-empty name free of `]`, coherent offsets reconstructing its exact span,
and in-bounds end; and occurrences are non-overlapping in scan order. -/
def ParserSound (l : Str) : Prop :=
  (∀ o ∈ parseVariablesFromText l,
    o.name ≠ [] ∧ ']' ∉ o.name ∧ o.stop = o.start + o.name.length + 2 ∧
    o.stop ≤ l.length ∧
    (l.drop o.start).take (o.name.length + 2) = '[' :: o.name ++ [']']) ∧
  List.Pairwise (fun a b => a.stop ≤ b.start) (parseVariablesFromText l)

/-! ## General list helper lemmas -/

theorem list_set_get_self {α : Type} :
    ∀ (l : List α) (i : Nat) (h : i < l.length), l.set i (l.get ⟨i, h⟩) = l
  | _ :: _, 0, _ => rfl
  | a :: l, i + 1, h => by
    simpa using congrArg (fun t => a :: t)
      (list_set_get_self l i (by simpa using h))

theorem findIdxP_none {α : Type} (p : α → Bool) (l : List α)
    (h : ∀ x ∈ l, p x = false) : l.findIdx? p = none :=
  List.findIdx?_eq_none_iff.mpr h

theorem findIdxP_some {α : Type} (p : α → Bool) (l : List α) :
    ∀ (i : Nat) (hi : i < l.length), p (l.get ⟨i, hi⟩) = true →
      (∀ (j : Nat) (hj : j < l.length), j < i → p (l.get ⟨j, hj⟩) = false) →
      l.findIdx? p = some i := by
  induction l with
  | nil => intro i hi; simp at hi
  | cons x xs ih =>
    intro i hi hp hbefore
    match i with
    | 0 =>
      rw [List.findIdx?_cons]
      simp only [List.get] at hp
      simp [hp]
    | i + 1 =>
      have hx : p x = false := hbefore 0 (by simp) (by omega)
      rw [List.findIdx?_cons, hx]
      simp only [Bool.false_eq_true, if_false]
      rw [List.findIdx?_succ]
      have hrec := ih i (by simpa using hi) (by simpa using hp)
        (fun j hj hji => by
          have := hbefore (j + 1) (by simpa using Nat.succ_lt_succ hj) (by omega)
          simpa using this)
      rw [hrec]
      rfl

theorem findIdxP_some_imp {α : Type} (p : α → Bool) (l : List α) :
    ∀ (i : Nat), l.findIdx? p = some i →
      ∃ hi : i < l.length, p (l.get ⟨i, hi⟩) = true := by
  induction l with
  | nil => intro i h; simp [List.findIdx?] at h
  | cons x xs ih =>
    intro i h
    rw [List.findIdx?_cons] at h
    by_cases hx : p x = true
    · rw [hx] at h
      simp only [if_true] at h
      cases h
      exact ⟨by simp, by simpa using hx⟩
    · rw [Bool.not_eq_true] at hx
      rw [hx] at h
      simp only [Bool.false_eq_true, if_false] at h
      rw [List.findIdx?_succ] at h
      cases hfind : xs.findIdx? p with
      | none => rw [hfind] at h; simp at h
      | some j =>
        rw [hfind] at h
        simp only [Option.map_some'] at h
        cases h
        obtain ⟨hj, hpj⟩ := ih j hfind
        exact ⟨by simpa using Nat.succ_lt_succ hj, by simpa using hpj⟩

/-! ## C6: failure semantics of the persistence layer -/

/-- C6 counterexample: `getUserVariables` on a failing adapter does not
surface the failure; it returns the empty default, indistinguishable from a
successful read of an empty store (the `safeBrowser` `get` wrapper catches
the raw error and falls back to `\x7b\x7d`). -/
theorem getUserVariables_swallows_failure :
    getUserVariables AdapterResult.failure = [] ∧
    getUserVariables AdapterResult.failure
      = getUserVariables (AdapterResult.ok (some [])) :=
  ⟨rfl, rfl⟩

/-- C6 (amended): a persistence **write** failure propagates to the caller
of `addUserVariable` as a thrown error (nothing is reported as success),
and a successful write returns the upserted collection; but a **read**
failure is swallowed: `getUserVariables` returns the empty default instead
of surfacing the failure. -/
theorem storageFailureSemantics :
    (∀ getRaw input freshId now,
        addUserVariableStored getRaw AdapterResult.failure input freshId now
          = Except.error ()) ∧
    (∀ getRaw input freshId now,
        addUserVariableStored getRaw (AdapterResult.ok ()) input freshId now
          = Except.ok (addUserVariable (getUserVariables getRaw) input freshId now)) ∧
    getUserVariables AdapterResult.failure = [] :=
  ⟨fun _ _ _ _ => rfl, fun _ _ _ _ => rfl, rfl⟩

/-! ## C7: update-by-id semantics -/

/-- C7: `updateUserVariable` on an id absent from the collection is a silent
no-op returning the input unchanged with the collection untouched; when the
id is present (first at position `i`), exactly that slot is replaced by the
input refreshed to the current time, which is also returned. -/
theorem updateUserVariable_spec (vars : List UserVariable) (uv : UserVariable)
    (now : Nat) :
    ((∀ w ∈ vars, w.id ≠ uv.id) → updateUserVariable vars uv now = (vars, uv)) ∧
    (∀ (i : Nat) (hi : i < vars.length), (vars.get ⟨i, hi⟩).id = uv.id →
      (∀ (j : Nat) (hj : j < vars.length), j < i → (vars.get ⟨j, hj⟩).id ≠ uv.id) →
      updateUserVariable vars uv now =
        (vars.set i { uv with timestamp := now }, { uv with timestamp := now })) := by
  constructor
  · intro h
    have hnone : vars.findIdx? (fun v => v.id == uv.id) = none :=
      findIdxP_none _ _ (fun x hx => beq_eq_false_iff_ne.mpr (h x hx))
    unfold updateUserVariable
    rw [hnone]
  · intro i hi hp hbefore
    have hsome : vars.findIdx? (fun v => v.id == uv.id) = some i :=
      findIdxP_some _ _ i hi (beq_iff_eq.mpr hp)
        (fun j hj hji => beq_eq_false_iff_ne.mpr (hbefore j hj hji))
    unfold updateUserVariable
    rw [hsome]

/-- C7 witness: a collection whose only variable has id `a`; updating a
variable with absent id `b` is a no-op, and updating one with id `a`
replaces the slot. -/
theorem updateUserVariable_spec_witness :
    updateUserVariable [⟨"a".toList, "N".toList, "v".toList, none, none, 0⟩]
        ⟨"b".toList, "M".toList, "w".toList, none, none, 0⟩ 5
      = ([⟨"a".toList, "N".toList, "v".toList, none, none, 0⟩],
         ⟨"b".toList, "M".toList, "w".toList, none, none, 0⟩) ∧
    updateUserVariable [⟨"a".toList, "N".toList, "v".toList, none, none, 0⟩]
        ⟨"a".toList, "M".toList, "w".toList, none, none, 0⟩ 5
      = ([⟨"a".toList, "M".toList, "w".toList, none, none, 5⟩],
         ⟨"a".toList, "M".toList, "w".toList, none, none, 5⟩) :=
  ⟨(updateUserVariable_spec _ _ 5).1 (by decide),
   (updateUserVariable_spec _ _ 5).2 0 (by decide) (by decide) (by decide)⟩

/-! ## C9: replacement with an existing variable is read-only on the store -/

/-- C9: `handleReplaceVariable` invoked with `useExisting` and a selected
variable leaves the persisted variable collection exactly as it was, and
updates the text by splicing the selected variable's stored value into the
dialog's captured span. -/
theorem handleReplaceVariable_readonly (st : PopupState) (sv : UserVariable)
    (freshId : Str) (now : Nat) (t : Str) (h : st.optimizedText = some t) :
    (handleReplaceVariable st true (some sv) freshId now).storedVariables
        = st.storedVariables ∧
    (handleReplaceVariable st true (some sv) freshId now).optimizedText
        = some (replaceVariableInText t st.dialog.positionStart
            st.dialog.positionStop sv.value) := by
  unfold handleReplaceVariable
  rw [h]
  exact ⟨rfl, rfl⟩

/-- C9 witness: replacing `[NAME]` in `Hi [NAME]!` with the stored value of
an existing variable updates the text and leaves the store untouched. -/
theorem handleReplaceVariable_readonly_witness :
    (handleReplaceVariable
        ⟨some "Hi [NAME]!".toList,
         [⟨"a".toList, "NAME".toList, "Bob".toList, none, none, 0⟩],
         ⟨true, "NAME".toList, [], 3, 9⟩⟩ true
        (some ⟨"a".toList, "NAME".toList, "Bob".toList, none, none, 0⟩)
        "f".toList 7).storedVariables
      = [⟨"a".toList, "NAME".toList, "Bob".toList, none, none, 0⟩] ∧
    (handleReplaceVariable
        ⟨some "Hi [NAME]!".toList,
         [⟨"a".toList, "NAME".toList, "Bob".toList, none, none, 0⟩],
         ⟨true, "NAME".toList, [], 3, 9⟩⟩ true
        (some ⟨"a".toList, "NAME".toList, "Bob".toList, none, none, 0⟩)
        "f".toList 7).optimizedText
      = some (replaceVariableInText "Hi [NAME]!".toList 3 9 "Bob".toList) :=
  handleReplaceVariable_readonly _ _ "f".toList 7 "Hi [NAME]!".toList rfl

/-! ## C1: upsert-by-name semantics of addUserVariable -/

theorem addUserVariable_snd (vars : List UserVariable) (input : VariableInput)
    (freshId : Str) (now : Nat) :
    (addUserVariable vars input freshId now).2 = mkUserVariable input freshId now := by
  unfold addUserVariable mkUserVariable
  cases vars.findIdx? (fun v => v.name == input.name) <;> rfl

theorem addUserVariable_cons_of_name_ne (x : UserVariable)
    (vars : List UserVariable) (input : VariableInput) (freshId : Str)
    (now : Nat) (hx : (x.name == input.name) = false) :
    (addUserVariable (x :: vars) input freshId now).1
      = x :: (addUserVariable vars input freshId now).1 := by
  unfold addUserVariable
  rw [List.findIdx?_cons, hx]
  simp only [Bool.false_eq_true, if_false]
  rw [List.findIdx?_succ]
  cases hfind : vars.findIdx? (fun v => v.name == input.name) with
  | none => simp [hfind]
  | some j => simp [hfind, List.set]

/-- After one `addUserVariable` on a collection holding at most one variable
of the target name, the collection holds exactly the freshly built variable
under that name (whether the call overwrote or appended). -/
theorem addUserVariable_filter_name (vars : List UserVariable)
    (input : VariableInput) (freshId : Str) (now : Nat)
    (h : (vars.filter (fun w => w.name == input.name)).length ≤ 1) :
    (addUserVariable vars input freshId now).1.filter
        (fun w => w.name == input.name)
      = [mkUserVariable input freshId now] := by
  induction vars with
  | nil =>
    unfold addUserVariable
    simp [List.findIdx?, List.filter, mkUserVariable]
  | cons x rest ih =>
    by_cases hx : (x.name == input.name) = true
    · have hfind : (x :: rest).findIdx? (fun v => v.name == input.name) = some 0 := by
        rw [List.findIdx?_cons, hx]
        simp
      have hempty : rest.filter (fun w => w.name == input.name) = [] := by
        rw [List.filter_cons, hx] at h
        simp only [if_true, List.length_cons] at h
        exact List.eq_nil_of_length_eq_zero (by omega)
      unfold addUserVariable
      rw [hfind]
      simp only [List.set]
      rw [List.filter_cons, hempty]
      simp [mkUserVariable]
    · rw [Bool.not_eq_true] at hx
      rw [addUserVariable_cons_of_name_ne x rest input freshId now hx,
        List.filter_cons, hx]
      simp only [Bool.false_eq_true, if_false]
      apply ih
      rw [List.filter_cons, hx] at h
      simpa using h

/-- C1 counterexample: `upsertByName("X","v1")` (fresh id `id1`) followed by
`upsertByName("X","v2")` (fresh id `id2`) starting from the empty collection
leaves exactly one variable named `X` with value `v2` — but its id is the
second call's freshly generated `id2`, not the id `id1` the variable had
after the first call: `addUserVariable` overwrites the slot with a wholly
new record, fresh id included. -/
theorem addUserVariable_id_not_preserved :
    ((addUserVariable [] ⟨"X".toList, "v1".toList, none, none⟩
        "id1".toList 0).1.map (fun w => w.id) = ["id1".toList]) ∧
    ((addUserVariable
        (addUserVariable [] ⟨"X".toList, "v1".toList, none, none⟩
          "id1".toList 0).1
        ⟨"X".toList, "v2".toList, none, none⟩ "id2".toList 1).1.filter
        (fun w => w.name == "X".toList)).map (fun w => w.id) = ["id2".toList] ∧
    "id2".toList ≠ "id1".toList := by
  refine ⟨?_, ?_, ?_⟩ <;> decide

/-- C1 (amended): on a starting collection holding at most one variable
named `n`, `upsertByName(n, v1)` followed by `upsertByName(n, v2)` leaves
exactly one variable named `n`, with value `v2` — but with the second
call's freshly generated id (a fresh id is generated on *every* call; when
the name exists, the slot is overwritten with a wholly new record, so only
the list position is preserved, not the id). -/
theorem addUserVariable_upsert (vars : List UserVariable) (n v1 v2 : Str)
    (d1 c1 d2 c2 : Option Str) (id1 id2 : Str) (t1 t2 : Nat)
    (huniq : (vars.filter (fun w => w.name == n)).length ≤ 1) :
    (addUserVariable vars ⟨n, v1, d1, c1⟩ id1 t1).1.filter
        (fun w => w.name == n) = [⟨id1, n, v1, d1, c1, t1⟩] ∧
    (addUserVariable (addUserVariable vars ⟨n, v1, d1, c1⟩ id1 t1).1
        ⟨n, v2, d2, c2⟩ id2 t2).1.filter (fun w => w.name == n)
      = [⟨id2, n, v2, d2, c2, t2⟩] := by
  have h1 := addUserVariable_filter_name vars ⟨n, v1, d1, c1⟩ id1 t1 huniq
  refine ⟨h1, ?_⟩
  have h2 := addUserVariable_filter_name
    (addUserVariable vars ⟨n, v1, d1, c1⟩ id1 t1).1 ⟨n, v2, d2, c2⟩ id2 t2
    (by rw [h1]; simp)
  exact h2

/-- C1 witness: the upsert pair on a concrete one-variable starting
collection. -/
theorem addUserVariable_upsert_witness :
    (addUserVariable [⟨"q".toList, "Y".toList, "y".toList, none, none, 0⟩]
        ⟨"X".toList, "v1".toList, none, none⟩ "id1".toList 1).1.filter
        (fun w => w.name == "X".toList)
      = [⟨"id1".toList, "X".toList, "v1".toList, none, none, 1⟩] ∧
    (addUserVariable
        (addUserVariable [⟨"q".toList, "Y".toList, "y".toList, none, none, 0⟩]
          ⟨"X".toList, "v1".toList, none, none⟩ "id1".toList 1).1
        ⟨"X".toList, "v2".toList, none, none⟩ "id2".toList 2).1.filter
        (fun w => w.name == "X".toList)
      = [⟨"id2".toList, "X".toList, "v2".toList, none, none, 2⟩] :=
  addUserVariable_upsert
    [⟨"q".toList, "Y".toList, "y".toList, none, none, 0⟩]
    "X".toList "v1".toList "v2".toList none none none none
    "id1".toList "id2".toList 1 2 (by decide)

/-! ## C2: name uniqueness under store operations -/

theorem addUserVariable_nodup_names (vars : List UserVariable)
    (input : VariableInput) (freshId : Str) (now : Nat)
    (h : (vars.map (fun v => v.name)).Nodup) :
    ((addUserVariable vars input freshId now).1.map (fun v => v.name)).Nodup := by
  unfold addUserVariable
  cases hfind : vars.findIdx? (fun v => v.name == input.name) with
  | none =>
    simp only [List.map_append]
    rw [List.nodup_append]
    refine ⟨h, List.nodup_singleton _, ?_⟩
    intro a ha hb
    simp only [List.map_cons, List.map_nil, List.mem_cons, List.not_mem_nil,
      or_false] at hb
    obtain ⟨w, hw, hwa⟩ := List.mem_map.mp ha
    have := List.findIdx?_eq_none_iff.mp hfind w hw
    rw [beq_eq_false_iff_ne] at this
    exact this (by rw [hwa, hb])
  | some i =>
    obtain ⟨hi, hpi⟩ := findIdxP_some_imp _ vars i hfind
    rw [beq_iff_eq] at hpi
    simp only [List.map_set]
    have : (vars.map (fun v => v.name)).set i input.name
        = vars.map (fun v => v.name) := by
      have hget : (vars.map (fun v => v.name)).get ⟨i, by simpa using hi⟩
          = input.name := by
        simp only [List.get_eq_getElem, List.getElem_map]
        simpa using hpi
      calc (vars.map (fun v => v.name)).set i input.name
          = (vars.map (fun v => v.name)).set i
              ((vars.map (fun v => v.name)).get ⟨i, by simpa using hi⟩) := by
            rw [hget]
        _ = vars.map (fun v => v.name) :=
            list_set_get_self _ i (by simpa using hi)
    rw [this]
    exact h

theorem removeUserVariable_nodup_names (vars : List UserVariable) (id : Str)
    (h : (vars.map (fun v => v.name)).Nodup) :
    ((removeUserVariable vars id).map (fun v => v.name)).Nodup :=
  List.Nodup.sublist (List.Sublist.map _ (List.filter_sublist vars)) h

theorem storeOps_nodup_aux (ops : List StoreOp) :
    ∀ (start : List UserVariable), (∀ op ∈ ops, op.isUpdate = false) →
      (start.map (fun v => v.name)).Nodup →
      ((ops.foldl applyStoreOp start).map (fun v => v.name)).Nodup := by
  induction ops with
  | nil => intro start _ h; simpa using h
  | cons op rest ih =>
    intro start hops h
    rw [List.foldl_cons]
    refine ih (applyStoreOp start op) (fun o ho => hops o (by simp [ho])) ?_
    cases op with
    | add input freshId now =>
      exact addUserVariable_nodup_names start input freshId now h
    | update uv now =>
      have := hops (.update uv now) (by simp)
      simp [StoreOp.isUpdate] at this
    | remove id => exact removeUserVariable_nodup_names start id h

/-- C2 counterexample: starting from the empty collection, add `A`, add
`B`, then `updateUserVariable` the first variable renaming it to `B`: the
persisted collection afterwards holds **two** variables named `B` —
`updateUserVariable` performs no name-uniqueness check, so it does not
preserve the invariant. -/
theorem updateUserVariable_breaks_uniqueness :
    ((runStoreOps
        [.add ⟨"A".toList, "a".toList, none, none⟩ "1".toList 0,
         .add ⟨"B".toList, "b".toList, none, none⟩ "2".toList 1,
         .update ⟨"1".toList, "B".toList, "x".toList, none, none, 0⟩ 2]).map
        (fun v => v.name) = ["B".toList, "B".toList]) ∧
    ¬ ((runStoreOps
        [.add ⟨"A".toList, "a".toList, none, none⟩ "1".toList 0,
         .add ⟨"B".toList, "b".toList, none, none⟩ "2".toList 1,
         .update ⟨"1".toList, "B".toList, "x".toList, none, none, 0⟩ 2]).map
        (fun v => v.name)).Nodup := by
  refine ⟨?_, ?_⟩ <;> decide

/-- C2 (amended): starting from the empty collection, after any sequence of
`addUserVariable` and `removeUserVariable` operations the persisted
collection has pairwise distinct names (the upsert dedupes by name, removal
only deletes); `updateUserVariable`, however, may change a variable's name
to one already used by another variable and therefore does **not** preserve
the invariant. -/
theorem storeOps_name_unique (ops : List StoreOp)
    (h : ∀ op ∈ ops, op.isUpdate = false) :
    ((runStoreOps ops).map (fun v => v.name)).Nodup :=
  storeOps_nodup_aux ops [] h (by simp)

/-- C2 witness: a concrete add/add/remove/add sequence yields pairwise
distinct names. -/
theorem storeOps_name_unique_witness :
    ((runStoreOps
        [.add ⟨"A".toList, "a".toList, none, none⟩ "1".toList 0,
         .add ⟨"B".toList, "b".toList, none, none⟩ "2".toList 1,
         .remove "1".toList,
         .add ⟨"A".toList, "c".toList, none, none⟩ "3".toList 2]).map
        (fun v => v.name)).Nodup :=
  storeOps_name_unique _ (by decide)

/-! ## C4: ring-buffer behaviour of addRecentPrompt -/

theorem take_append_take {α : Type} (A l : List α) (n : Nat) :
    (A ++ l.take n).take n = (A ++ l).take n := by
  rw [List.take_append_eq_append_take, List.take_append_eq_append_take,
    List.take_take]
  congr 1
  have : (n - A.length) ⊓ n = n - A.length :=
    inf_eq_left.mpr (Nat.sub_le n A.length)
  rw [this]

theorem addRecentPrompts_eq (adds : List (RecentPromptInput × Str × Nat)) :
    ∀ (acc : List RecentPrompt), acc.length ≤ 20 →
      addRecentPrompts acc adds
        = ((adds.map (fun a => mkRecentPrompt a.1 a.2.1 a.2.2)).reverse
            ++ acc).take 20 := by
  induction adds with
  | nil =>
    intro acc hacc
    simp [addRecentPrompts, List.take_of_length_le hacc]
  | cons a rest ih =>
    intro acc hacc
    show addRecentPrompts (addRecentPrompt acc a.1 a.2.1 a.2.2) rest = _
    rw [ih (addRecentPrompt acc a.1 a.2.1 a.2.2)
      (by simp [addRecentPrompt])]
    unfold addRecentPrompt
    rw [take_append_take]
    simp only [List.map_cons, List.reverse_cons, List.append_assoc,
      List.singleton_append]

/-- C4: `addRecentPrompt` prepends a fresh entry and truncates to 20; after
any 21 additions starting from the empty buffer, the buffer is exactly the
last 20 added entries in most-recent-first order (length 20), and — when
the later fresh ids differ from the first one, as generated uuids do — the
very first added entry is absent. -/
theorem addRecentPrompt_ring (first : RecentPromptInput × Str × Nat)
    (rest : List (RecentPromptInput × Str × Nat)) (hlen : rest.length = 20) :
    addRecentPrompts [] (first :: rest)
        = (rest.map (fun a => mkRecentPrompt a.1 a.2.1 a.2.2)).reverse ∧
    (addRecentPrompts [] (first :: rest)).length = 20 ∧
    ((∀ a ∈ rest, a.2.1 ≠ first.2.1) →
      mkRecentPrompt first.1 first.2.1 first.2.2
        ∉ addRecentPrompts [] (first :: rest)) := by
  have hmain : addRecentPrompts [] (first :: rest)
      = (rest.map (fun a => mkRecentPrompt a.1 a.2.1 a.2.2)).reverse := by
    rw [addRecentPrompts_eq (first :: rest) [] (by simp)]
    simp only [List.map_cons, List.reverse_cons, List.append_nil]
    rw [List.take_append_eq_append_take]
    have hrev : (rest.map (fun a => mkRecentPrompt a.1 a.2.1 a.2.2)).reverse.length
        = 20 := by
      simp [hlen]
    rw [List.take_of_length_le (le_of_eq hrev), hrev]
    simp
  refine ⟨hmain, by rw [hmain]; simp [hlen], ?_⟩
  intro hfresh hmem
  rw [hmain, List.mem_reverse, List.mem_map] at hmem
  obtain ⟨a, ha, heq⟩ := hmem
  have : a.2.1 = first.2.1 := congrArg RecentPrompt.id heq
  exact hfresh a ha this

/-- C4 witness: after the concrete 21 additions the buffer has length 20
and the first added entry is gone. -/
theorem addRecentPrompt_ring_witness :
    (addRecentPrompts [] (ringWitnessFirst :: ringWitnessRest)).length = 20 ∧
    mkRecentPrompt ringWitnessFirst.1 ringWitnessFirst.2.1 ringWitnessFirst.2.2
      ∉ addRecentPrompts [] (ringWitnessFirst :: ringWitnessRest) :=
  ⟨(addRecentPrompt_ring ringWitnessFirst ringWitnessRest (by decide)).2.1,
   (addRecentPrompt_ring ringWitnessFirst ringWitnessRest (by decide)).2.2
     (by decide)⟩

/-! ## Bracket parser lemmas -/

theorem shiftOcc_mk (i : Nat) (name : Str) (a b : Nat) :
    shiftOcc i ⟨name, a, b⟩ = ⟨name, a + i, b + i⟩ := rfl

theorem shiftOcc_zero (o : BracketOccurrence) : shiftOcc 0 o = o := rfl

theorem shiftOcc_shiftOcc (i j : Nat) (o : BracketOccurrence) :
    shiftOcc i (shiftOcc j o) = shiftOcc (j + i) o := by
  cases o
  simp only [shiftOcc_mk, BracketOccurrence.mk.injEq]
  refine ⟨trivial, by omega, by omega⟩

theorem map_shiftOcc_shiftOcc (i j : Nat) (l : List BracketOccurrence) :
    (l.map (shiftOcc j)).map (shiftOcc i) = l.map (shiftOcc (j + i)) := by
  induction l with
  | nil => rfl
  | cons a l ih => simp only [List.map_cons, shiftOcc_shiftOcc, ih]

theorem upToCloseBracket_sound : ∀ (l : Str) (name : Str),
    upToCloseBracket l = some name →
      ']' ∉ name ∧ l = name ++ ']' :: l.drop (name.length + 1) := by
  intro l
  induction l with
  | nil => intro name h; simp [upToCloseBracket] at h
  | cons c rest ih =>
    intro name h
    unfold upToCloseBracket at h
    by_cases hc : c = ']'
    · rw [if_pos hc] at h
      cases h
      simpa using hc
    · rw [if_neg hc] at h
      cases hfind : upToCloseBracket rest with
      | none => rw [hfind] at h; simp at h
      | some p =>
        rw [hfind] at h
        simp only [Option.map_some'] at h
        cases h
        obtain ⟨hmem, heq⟩ := ih p hfind
        constructor
        · intro hin
          rcases List.mem_cons.mp hin with h1 | h1
          · exact hc h1.symm
          · exact hmem h1
        · simp only [List.length_cons, List.cons_append]
          rw [List.drop_succ_cons]
          exact congrArg (fun t => c :: t) heq

theorem upToCloseBracket_append (name : Str) (s : Str) (h : ']' ∉ name) :
    upToCloseBracket (name ++ ']' :: s) = some name := by
  induction name with
  | nil => simp [upToCloseBracket]
  | cons c p ih =>
    have hc : c ≠ ']' := fun hc => h (by simp [hc])
    simp only [List.cons_append]
    unfold upToCloseBracket
    rw [if_neg hc, ih (fun hp => h (by simp [hp]))]
    rfl

theorem bracketScanFuel_step_match (f : Nat) (c : Char) (rest : Str) (i : Nat)
    (name : Str) (hc : c = '[') (hfind : upToCloseBracket rest = some name)
    (hname : name ≠ []) :
    bracketScanFuel (f + 1) (c :: rest) i
      = { name := name, start := i, stop := i + name.length + 2 } ::
          bracketScanFuel f (rest.drop (name.length + 1))
            (i + name.length + 2) := by
  conv_lhs => unfold bracketScanFuel
  rw [if_pos hc, hfind]
  dsimp only
  rw [if_neg hname]

theorem bracketScanFuel_step_skip (f : Nat) (c : Char) (rest : Str) (i : Nat)
    (h : c ≠ '[' ∨ upToCloseBracket rest = none ∨
      upToCloseBracket rest = some []) :
    bracketScanFuel (f + 1) (c :: rest) i = bracketScanFuel f rest (i + 1) := by
  by_cases hc : c = '['
  · conv_lhs => unfold bracketScanFuel
    rw [if_pos hc]
    rcases h with hc2 | hnone | hempty
    · exact absurd hc hc2
    · rw [hnone]
    · rw [hempty]
      dsimp only
      rw [if_pos rfl]
  · conv_lhs => unfold bracketScanFuel
    rw [if_neg hc]

theorem bracketScanFuel_congr : ∀ (f1 f2 : Nat) (l : Str) (i : Nat),
    l.length ≤ f1 → l.length ≤ f2 →
    bracketScanFuel f1 l i = bracketScanFuel f2 l i := by
  intro f1
  induction f1 with
  | zero =>
    intro f2 l i h1 _
    have hl : l = [] := List.eq_nil_of_length_eq_zero (by omega)
    subst hl
    cases f2 <;> rfl
  | succ f1 ih =>
    intro f2 l i h1 h2
    cases l with
    | nil => cases f2 <;> rfl
    | cons c rest =>
      cases f2 with
      | zero => simp at h2
      | succ f2 =>
        simp only [List.length_cons] at h1 h2
        by_cases hc : c = '['
        · cases hfind : upToCloseBracket rest with
          | none =>
            rw [bracketScanFuel_step_skip f1 c rest i (Or.inr (Or.inl hfind)),
              bracketScanFuel_step_skip f2 c rest i (Or.inr (Or.inl hfind))]
            exact ih f2 rest (i + 1) (by omega) (by omega)
          | some name =>
            by_cases hname : name = []
            · subst hname
              rw [bracketScanFuel_step_skip f1 c rest i (Or.inr (Or.inr hfind)),
                bracketScanFuel_step_skip f2 c rest i (Or.inr (Or.inr hfind))]
              exact ih f2 rest (i + 1) (by omega) (by omega)
            · rw [bracketScanFuel_step_match f1 c rest i name hc hfind hname,
                bracketScanFuel_step_match f2 c rest i name hc hfind hname]
              refine congrArg _ (ih f2 (rest.drop (name.length + 1)) _ ?_ ?_) <;>
                simp only [List.length_drop] <;> omega
        · rw [bracketScanFuel_step_skip f1 c rest i (Or.inl hc),
            bracketScanFuel_step_skip f2 c rest i (Or.inl hc)]
          exact ih f2 rest (i + 1) (by omega) (by omega)

theorem bracketScanFuel_shift : ∀ (f : Nat) (l : Str) (i : Nat),
    bracketScanFuel f l i = (bracketScanFuel f l 0).map (shiftOcc i) := by
  intro f
  induction f with
  | zero => intro l i; cases l <;> rfl
  | succ f ih =>
    intro l i
    cases l with
    | nil => rfl
    | cons c rest =>
      by_cases hc : c = '['
      · cases hfind : upToCloseBracket rest with
        | none =>
          rw [bracketScanFuel_step_skip f c rest i (Or.inr (Or.inl hfind)),
            bracketScanFuel_step_skip f c rest 0 (Or.inr (Or.inl hfind)),
            ih rest (i + 1), ih rest (0 + 1), map_shiftOcc_shiftOcc]
          have he : (0 : Nat) + 1 + i = i + 1 := by omega
          rw [he]
        | some name =>
          by_cases hname : name = []
          · subst hname
            rw [bracketScanFuel_step_skip f c rest i (Or.inr (Or.inr hfind)),
              bracketScanFuel_step_skip f c rest 0 (Or.inr (Or.inr hfind)),
              ih rest (i + 1), ih rest (0 + 1), map_shiftOcc_shiftOcc]
            have he : (0 : Nat) + 1 + i = i + 1 := by omega
            rw [he]
          · rw [bracketScanFuel_step_match f c rest i name hc hfind hname,
              bracketScanFuel_step_match f c rest 0 name hc hfind hname,
              ih (rest.drop (name.length + 1)) (i + name.length + 2),
              ih (rest.drop (name.length + 1)) (0 + name.length + 2),
              List.map_cons, map_shiftOcc_shiftOcc]
            congr 1
            · simp only [shiftOcc_mk, BracketOccurrence.mk.injEq]
              refine ⟨trivial, by omega, by omega⟩
            · have he : (0 : Nat) + name.length + 2 + i
                  = i + name.length + 2 := by omega
              rw [he]
      · rw [bracketScanFuel_step_skip f c rest i (Or.inl hc),
          bracketScanFuel_step_skip f c rest 0 (Or.inl hc),
          ih rest (i + 1), ih rest (0 + 1), map_shiftOcc_shiftOcc]
        have he : (0 : Nat) + 1 + i = i + 1 := by omega
        rw [he]

theorem parseVariablesFromText_nil : parseVariablesFromText [] = [] := rfl

theorem parseVariablesFromText_cons_skip (c : Char) (rest : Str)
    (h : c ≠ '[' ∨ upToCloseBracket rest = none ∨
      upToCloseBracket rest = some []) :
    parseVariablesFromText (c :: rest)
      = (parseVariablesFromText rest).map (shiftOcc 1) := by
  unfold parseVariablesFromText
  simp only [List.length_cons]
  rw [bracketScanFuel_step_skip rest.length c rest 0 h,
    bracketScanFuel_shift rest.length rest (0 + 1)]

theorem parseVariablesFromText_cons_match (c : Char) (rest : Str) (name : Str)
    (hc : c = '[') (hfind : upToCloseBracket rest = some name)
    (hname : name ≠ []) :
    parseVariablesFromText (c :: rest)
      = { name := name, start := 0, stop := name.length + 2 } ::
          (parseVariablesFromText (rest.drop (name.length + 1))).map
            (shiftOcc (name.length + 2)) := by
  unfold parseVariablesFromText
  simp only [List.length_cons]
  rw [bracketScanFuel_step_match rest.length c rest 0 name hc hfind hname,
    bracketScanFuel_shift rest.length (rest.drop (name.length + 1))
      (0 + name.length + 2),
    bracketScanFuel_congr rest.length (rest.drop (name.length + 1)).length
      (rest.drop (name.length + 1)) 0
      (by simp only [List.length_drop]; omega) (le_refl _)]
  simp only [Nat.zero_add]

theorem parserSound_nil : ParserSound [] := by
  constructor
  · intro o ho
    simp [parseVariablesFromText_nil] at ho
  · simp [parseVariablesFromText_nil]

theorem parserSound_skip (c : Char) (rest : Str)
    (h : c ≠ '[' ∨ upToCloseBracket rest = none ∨
      upToCloseBracket rest = some [])
    (ih : ParserSound rest) : ParserSound (c :: rest) := by
  obtain ⟨ihp, ihpw⟩ := ih
  rw [ParserSound, parseVariablesFromText_cons_skip c rest h]
  constructor
  · intro o ho
    obtain ⟨o2, ho2, rfl⟩ := List.mem_map.mp ho
    obtain ⟨h1, h2, h3, h4, h5⟩ := ihp o2 ho2
    refine ⟨h1, h2, by simp only [shiftOcc]; omega, ?_, ?_⟩
    · simp only [shiftOcc, List.length_cons]
      omega
    · show ((c :: rest).drop (o2.start + 1)).take (o2.name.length + 2) = _
      rw [List.drop_succ_cons]
      exact h5
  · rw [List.pairwise_map]
    refine ihpw.imp ?_
    intro a b hab
    simp only [shiftOcc]
    omega

theorem parserSound_match (c : Char) (rest : Str) (name : Str)
    (hc : c = '[') (hfind : upToCloseBracket rest = some name)
    (hname : name ≠ [])
    (ih : ParserSound (rest.drop (name.length + 1))) :
    ParserSound (c :: rest) := by
  obtain ⟨ihp, ihpw⟩ := ih
  obtain ⟨hmem, heq⟩ := upToCloseBracket_sound rest name hfind
  subst hc
  rw [ParserSound, parseVariablesFromText_cons_match '[' rest name rfl hfind hname]
  have hlen : rest.length = name.length + 1 + (rest.drop (name.length + 1)).length := by
    have hc := congrArg List.length heq
    simp only [List.length_append, List.length_cons] at hc
    omega
  have hstruct : ('[' :: rest)
      = ('[' :: name ++ [']']) ++ rest.drop (name.length + 1) := by
    conv_lhs => rw [heq]
    simp
  have hprefixlen : ('[' :: name ++ [']']).length = name.length + 2 := by
    simp
  constructor
  · intro o ho
    rcases List.mem_cons.mp ho with rfl | ho2
    · refine ⟨hname, hmem, by simp, ?_, ?_⟩
      · show name.length + 2 ≤ (('[' : Char) :: rest).length
        simp only [List.length_cons]
        omega
      · show ((('[' : Char) :: rest).drop 0).take (name.length + 2)
            = '[' :: name ++ [']']
        rw [List.drop_zero, hstruct]
        rw [List.take_append_eq_append_take, hprefixlen,
          List.take_of_length_le (le_of_eq hprefixlen)]
        simp
    · obtain ⟨o2, hmm2, rfl⟩ := List.mem_map.mp ho2
      obtain ⟨h1, h2, h3, h4, h5⟩ := ihp o2 hmm2
      refine ⟨h1, h2, by simp only [shiftOcc]; omega, ?_, ?_⟩
      · simp only [shiftOcc, List.length_cons]
        omega
      · show (('[' :: rest).drop (o2.start + (name.length + 2))).take
            (o2.name.length + 2) = _
        rw [hstruct, List.drop_append_eq_append_drop, hprefixlen]
        have hnil : ('[' :: name ++ [']']).drop (o2.start + (name.length + 2))
            = [] := by
          apply List.drop_eq_nil_of_le
          rw [hprefixlen]
          omega
        rw [hnil]
        have hidx : o2.start + (name.length + 2) - (name.length + 2)
            = o2.start := by omega
        rw [hidx]
        simpa using h5
  · constructor
    · intro b hb
      obtain ⟨o2, _, rfl⟩ := List.mem_map.mp hb
      simp only [shiftOcc]
      omega
    · rw [List.pairwise_map]
      refine ihpw.imp ?_
      intro a b hab
      simp only [shiftOcc]
      omega

theorem parserSound_aux : ∀ (n : Nat) (l : Str), l.length ≤ n → ParserSound l := by
  intro n
  induction n with
  | zero =>
    intro l h
    have hl : l = [] := List.eq_nil_of_length_eq_zero (by omega)
    subst hl
    exact parserSound_nil
  | succ n ih =>
    intro l hlen
    cases l with
    | nil => exact parserSound_nil
    | cons c rest =>
      simp only [List.length_cons] at hlen
      by_cases hc : c = '['
      · cases hfind : upToCloseBracket rest with
        | none =>
          exact parserSound_skip c rest (Or.inr (Or.inl hfind))
            (ih rest (by omega))
        | some name =>
          by_cases hname : name = []
          · subst hname
            exact parserSound_skip c rest (Or.inr (Or.inr hfind))
              (ih rest (by omega))
          · exact parserSound_match c rest name hc hfind hname
              (ih (rest.drop (name.length + 1))
                (by simp only [List.length_drop]; omega))
      · exact parserSound_skip c rest (Or.inl hc) (ih rest (by omega))

theorem parserSound_all (l : Str) : ParserSound l :=
  parserSound_aux l.length l (le_refl _)

/-- Concatenating the chunks rendered from `lastIndex` on reproduces the
text from `lastIndex` on, given in-bounds, span-coherent, ordered
occurrences that all start at or after `lastIndex`. -/
theorem interactiveChunks_join (t : Str) :
    ∀ (occs : List BracketOccurrence) (lastIndex : Nat),
      (∀ o ∈ occs, o.stop = o.start + o.name.length + 2 ∧ o.stop ≤ t.length ∧
        (t.drop o.start).take (o.name.length + 2) = '[' :: o.name ++ [']']) →
      List.Pairwise (fun a b => a.stop ≤ b.start) occs →
      (∀ o ∈ occs, lastIndex ≤ o.start) →
      lastIndex ≤ t.length →
      (interactiveChunks t occs lastIndex).foldr (fun a b => a ++ b) []
        = t.drop lastIndex := by
  intro occs
  induction occs with
  | nil =>
    intro lastIndex _ _ _ hbound
    unfold interactiveChunks
    by_cases hlt : lastIndex < t.length
    · rw [if_pos hlt]
      simp
    · rw [if_neg hlt]
      rw [List.drop_eq_nil_of_le (by omega)]
      rfl
  | cons o rest ih =>
    intro lastIndex hprops hpw hstart hbound
    obtain ⟨hstop, hle, hslice⟩ := hprops o (by simp)
    have hostart : lastIndex ≤ o.start := hstart o (by simp)
    have hostartle : o.start ≤ t.length := by omega
    have hjoinrest : (interactiveChunks t rest o.stop).foldr
        (fun a b => a ++ b) [] = t.drop o.stop := by
      refine ih o.stop (fun o2 ho2 => hprops o2 (by simp [ho2])) hpw.of_cons
        (fun o2 ho2 => (List.pairwise_cons.mp hpw).1 o2 ho2) hle
    have hbracket : ('[' :: o.name ++ [']']) ++ t.drop o.stop = t.drop o.start := by
      rw [← hslice]
      conv_rhs => rw [← List.take_append_drop (o.name.length + 2) (t.drop o.start)]
      congr 1
      rw [List.drop_drop]
      have hsum : o.start + (o.name.length + 2) = o.stop := by omega
      rw [hsum]
    have hlen : (t.take o.start).length = o.start := by
      rw [List.length_take]
      exact inf_eq_left.mpr hostartle
    unfold interactiveChunks
    by_cases hlt : lastIndex < o.start
    · rw [if_pos hlt, List.singleton_append, List.foldr_cons, List.foldr_cons,
        hjoinrest, hbracket]
      conv_rhs => rw [← List.take_append_drop o.start t]
      rw [List.drop_append_eq_append_drop, hlen]
      have hz : lastIndex - o.start = 0 := by omega
      rw [hz, List.drop_zero]
    · rw [if_neg hlt, List.nil_append, List.foldr_cons, hjoinrest, hbracket]
      have hEq : lastIndex = o.start := by omega
      rw [hEq]

/-- C10: round-trip invariant of the bracket parser.  Every occurrence `o`
reported by `parseVariablesFromText t` satisfies
`stop = start + name.length + 2` with the exact span
`t.slice(start, stop) = '[' + name + ']'`, its name non-empty and free of
`]`, and `stop ≤ t.length`; the occurrences are pairwise disjoint in order
(`a.stop ≤ b.start`); and `InteractiveText`'s interleaving of the
inter-occurrence substrings with the reconstructed `[name]` labels
reproduces `t` exactly. -/
theorem parseVariablesFromText_roundtrip (t : Str) :
    (∀ o ∈ parseVariablesFromText t,
      o.stop = o.start + o.name.length + 2 ∧
      o.stop ≤ t.length ∧
      (t.drop o.start).take (o.stop - o.start) = '[' :: o.name ++ [']'] ∧
      o.name ≠ [] ∧ ']' ∉ o.name) ∧
    List.Pairwise (fun a b => a.stop ≤ b.start) (parseVariablesFromText t) ∧
    interactiveTextRender t = t := by
  obtain ⟨hprops, hpw⟩ := parserSound_all t
  refine ⟨?_, hpw, ?_⟩
  · intro o ho
    obtain ⟨h1, h2, h3, h4, h5⟩ := hprops o ho
    refine ⟨h3, h4, ?_, h1, h2⟩
    have : o.stop - o.start = o.name.length + 2 := by omega
    rw [this]
    exact h5
  · unfold interactiveTextRender
    by_cases hnil : parseVariablesFromText t = []
    · rw [if_pos hnil]
    · rw [if_neg hnil]
      have := interactiveChunks_join t (parseVariablesFromText t) 0
        (fun o ho => ⟨(hprops o ho).2.2.1, (hprops o ho).2.2.2.1,
          (hprops o ho).2.2.2.2⟩)
        hpw (fun o _ => Nat.zero_le _) (Nat.zero_le _)
      rw [this, List.drop_zero]

/-! ## C8: completeness and ordering of the bracket parser -/

theorem shiftOcc_name (i : Nat) (o : BracketOccurrence) :
    (shiftOcc i o).name = o.name := rfl

theorem map_name_map_shiftOcc (k : Nat) (l : List BracketOccurrence) :
    (l.map (shiftOcc k)).map (fun o => o.name) = l.map (fun o => o.name) := by
  induction l with
  | nil => rfl
  | cons a l ih => simp only [List.map_cons, shiftOcc_name, ih]

theorem parseVariablesFromText_append_no_bracket (p : Str) (l : Str)
    (hp : '[' ∉ p) :
    parseVariablesFromText (p ++ l)
      = (parseVariablesFromText l).map (shiftOcc p.length) := by
  induction p with
  | nil =>
    simp only [List.nil_append, List.length_nil]
    have hz : ∀ os : List BracketOccurrence, os.map (shiftOcc 0) = os := by
      intro os
      induction os with
      | nil => rfl
      | cons a os ih => simp only [List.map_cons, ih, shiftOcc_zero]
    exact (hz _).symm
  | cons c p ih =>
    have hc : c ≠ '[' := fun h => hp (by simp [h])
    simp only [List.cons_append]
    rw [parseVariablesFromText_cons_skip c (p ++ l) (Or.inl hc),
      ih (fun h => hp (by simp [h])), map_shiftOcc_shiftOcc]
    simp only [List.length_cons]

theorem parseVariablesFromText_no_bracket (l : Str) (h : '[' ∉ l) :
    parseVariablesFromText l = [] := by
  have := parseVariablesFromText_append_no_bracket l [] h
  simpa using this

theorem parseVariablesFromText_bracket_head (name : Str) (s : Str)
    (hname : name ≠ []) (hmem : ']' ∉ name) :
    parseVariablesFromText ('[' :: name ++ ']' :: s)
      = { name := name, start := 0, stop := name.length + 2 } ::
          (parseVariablesFromText s).map (shiftOcc (name.length + 2)) := by
  have hfind : upToCloseBracket (name ++ ']' :: s) = some name :=
    upToCloseBracket_append name s hmem
  have hdrop : (name ++ ']' :: s).drop (name.length + 1) = s := by
    rw [List.drop_append_eq_append_drop,
      List.drop_eq_nil_of_le (by omega)]
    have : name.length + 1 - name.length = 1 := by omega
    rw [this]
    simp
  rw [show ('[' :: name ++ ']' :: s) = '[' :: (name ++ ']' :: s) from rfl,
    parseVariablesFromText_cons_match '[' (name ++ ']' :: s) name rfl hfind
      hname, hdrop]

theorem parseVariablesFromText_pairwise_lt (t : Str) :
    List.Pairwise (fun a b => a.start < b.start) (parseVariablesFromText t) := by
  obtain ⟨hprops, hpw⟩ := parserSound_all t
  refine hpw.imp_of_mem ?_
  intro a b ha _ hab
  have := (hprops a ha).2.2.1
  omega

/-- Names and count of the parse of a well-formed alternation of
placeholder-free segments and bracket placeholders. -/
theorem parseVariablesFromText_buildText (segs : List (Str × Str))
    (final : Str)
    (hseg : ∀ seg ∈ segs, '[' ∉ seg.1 ∧ seg.2 ≠ [] ∧ ']' ∉ seg.2)
    (hfin : '[' ∉ final) :
    (parseVariablesFromText (buildText segs final)).map (fun o => o.name)
        = segs.map (fun seg => seg.2) ∧
    (parseVariablesFromText (buildText segs final)).length = segs.length := by
  induction segs with
  | nil =>
    simp [buildText, parseVariablesFromText_no_bracket final hfin]
  | cons seg rest ih =>
    obtain ⟨hp, hname, hmem⟩ := hseg seg (by simp)
    have ihr := ih (fun s hs => hseg s (by simp [hs]))
    rw [buildText, List.append_assoc,
      parseVariablesFromText_append_no_bracket seg.1 _ hp,
      parseVariablesFromText_bracket_head seg.2 (buildText rest final)
        hname hmem]
    constructor
    · rw [map_name_map_shiftOcc]
      simp only [List.map_cons, shiftOcc_name]
      rw [map_name_map_shiftOcc, ihr.1]
    · simp only [List.length_map, List.length_cons, ihr.2]

/-- C8: for every text assembled from placeholder-free segments and `n`
well-formed bracket placeholders (non-empty names not containing `]`), the
parser returns exactly `n` occurrences whose names are the `n` placeholder
names in order, in strictly increasing `startIndex` order.  (The parser is
a total Lean function, so determinism and never-throwing are inherent.) -/
theorem parseVariablesFromText_complete (segs : List (Str × Str)) (final : Str)
    (hseg : ∀ seg ∈ segs, '[' ∉ seg.1 ∧ seg.2 ≠ [] ∧ ']' ∉ seg.2)
    (hfin : '[' ∉ final) :
    (parseVariablesFromText (buildText segs final)).map (fun o => o.name)
        = segs.map (fun seg => seg.2) ∧
    (parseVariablesFromText (buildText segs final)).length = segs.length ∧
    List.Pairwise (fun a b => a.start < b.start)
      (parseVariablesFromText (buildText segs final)) :=
  ⟨(parseVariablesFromText_buildText segs final hseg hfin).1,
   (parseVariablesFromText_buildText segs final hseg hfin).2,
   parseVariablesFromText_pairwise_lt _⟩

/-- C8 witness: `[A][B]` parses to exactly two occurrences named `A` and
`B`, in order. -/
theorem parseVariablesFromText_complete_witness :
    (parseVariablesFromText "[A][B]".toList).map (fun o => o.name)
        = ["A".toList, "B".toList] ∧
    (parseVariablesFromText "[A][B]".toList).length = 2 := by
  have h := parseVariablesFromText_complete
    [([], "A".toList), ([], "B".toList)] [] (by decide) (by decide)
  have e : buildText [([], "A".toList), ([], "B".toList)] []
      = "[A][B]".toList := by decide
  rw [e] at h
  exact ⟨h.1, h.2.1⟩

/-! ## C3: single-occurrence replacement -/

theorem pairwise_mem_rel {α : Type} (R : α → α → Prop) :
    ∀ (l : List α), List.Pairwise R l →
      ∀ a ∈ l, ∀ b ∈ l, a ≠ b → R a b ∨ R b a := by
  intro l
  induction l with
  | nil => intro _ a ha; simp at ha
  | cons x xs ih =>
    intro hpw a ha b hb hne
    obtain ⟨hx, hxs⟩ := List.pairwise_cons.mp hpw
    rcases List.mem_cons.mp ha with rfl | ha2
    · rcases List.mem_cons.mp hb with rfl | hb2
      · exact absurd rfl hne
      · exact Or.inl (hx b hb2)
    · rcases List.mem_cons.mp hb with rfl | hb2
      · exact Or.inr (hx a ha2)
      · exact ih hxs a ha2 b hb2 hne

theorem slice_append_left {α : Type} (A B : List α) (a m : Nat)
    (h : a + m ≤ A.length) :
    ((A ++ B).drop a).take m = (A.drop a).take m := by
  rw [List.drop_append_eq_append_drop]
  have hz : a - A.length = 0 := by omega
  rw [hz, List.drop_zero, List.take_append_eq_append_take]
  have hz2 : m - (A.drop a).length = 0 := by
    simp only [List.length_drop]
    omega
  rw [hz2, List.take_zero, List.append_nil]

/-- C3: confirming a replacement for an occurrence captured at `[start,
stop)` with value `v` yields exactly `t.take start ++ v ++ t.drop stop`;
any other occurrence reported by the parse of `t` is disjoint from the
replaced span, and its exact `[name]` text survives unchanged in the result
(at its own offsets when it lies before the replaced span, at offsets
shifted by the length change when it lies after). -/
theorem replaceVariable_single_occurrence (t : Str) (occ : BracketOccurrence)
    (v : Str) (hocc : occ ∈ parseVariablesFromText t) :
    replaceVariableInText t occ.start occ.stop v
        = t.take occ.start ++ v ++ t.drop occ.stop ∧
    ∀ occ2 ∈ parseVariablesFromText t, occ2 ≠ occ →
      (occ2.stop ≤ occ.start ∨ occ.stop ≤ occ2.start) ∧
      (occ2.stop ≤ occ.start →
        ((replaceVariableInText t occ.start occ.stop v).drop occ2.start).take
            (occ2.name.length + 2) = '[' :: occ2.name ++ [']']) ∧
      (occ.stop ≤ occ2.start →
        ((replaceVariableInText t occ.start occ.stop v).drop
            (occ.start + v.length + (occ2.start - occ.stop))).take
            (occ2.name.length + 2) = '[' :: occ2.name ++ [']']) := by
  obtain ⟨hprops, hpw⟩ := parserSound_all t
  obtain ⟨_, _, hstop1, hle1, _⟩ := hprops occ hocc
  refine ⟨rfl, ?_⟩
  intro occ2 h2 hne
  obtain ⟨_, _, hstop2, hle2, hslice2⟩ := hprops occ2 h2
  have hdisj : occ2.stop ≤ occ.start ∨ occ.stop ≤ occ2.start :=
    pairwise_mem_rel _ _ hpw occ2 h2 occ hocc hne
  have hstartle : occ.start ≤ t.length := by omega
  refine ⟨hdisj, ?_, ?_⟩
  · intro hb
    unfold replaceVariableInText
    rw [List.append_assoc,
      slice_append_left (t.take occ.start) (v ++ t.drop occ.stop)
        occ2.start (occ2.name.length + 2)
        (by rw [List.length_take]; omega),
      List.drop_take, List.take_take]
    have hmin : (occ2.name.length + 2) ⊓ (occ.start - occ2.start)
        = occ2.name.length + 2 := inf_eq_left.mpr (by omega)
    rw [hmin]
    exact hslice2
  · intro ha
    unfold replaceVariableInText
    rw [List.append_assoc]
    have hlenA : (t.take occ.start).length = occ.start := by
      rw [List.length_take]
      exact inf_eq_left.mpr hstartle
    rw [List.drop_append_eq_append_drop, hlenA,
      List.drop_eq_nil_of_le (le_trans (le_of_eq hlenA) (by omega)),
      List.nil_append]
    have hidx : occ.start + v.length + (occ2.start - occ.stop) - occ.start
        = v.length + (occ2.start - occ.stop) := by omega
    rw [hidx, List.drop_append_eq_append_drop,
      List.drop_eq_nil_of_le (by omega), List.nil_append]
    have hidx2 : v.length + (occ2.start - occ.stop) - v.length
        = occ2.start - occ.stop := by omega
    rw [hidx2, List.drop_drop]
    have hidx3 : occ.stop + (occ2.start - occ.stop) = occ2.start := by omega
    rw [hidx3]
    exact hslice2

/-- C3 witness: replacing the first `NAME` occurrence (span `[3,9)`) of
`Hi [NAME] and [NAME] again` with `Bob` yields
`Hi Bob and [NAME] again`, and the second occurrence's `[NAME]` text
survives at its shifted offset. -/
theorem replaceVariable_single_occurrence_witness :
    replaceVariableInText "Hi [NAME] and [NAME] again".toList 3 9 "Bob".toList
        = "Hi Bob and [NAME] again".toList ∧
    ((replaceVariableInText "Hi [NAME] and [NAME] again".toList 3 9
        "Bob".toList).drop (3 + 3 + (14 - 9))).take 6 = "[NAME]".toList := by
  constructor
  · decide
  · have h := (replaceVariable_single_occurrence
      "Hi [NAME] and [NAME] again".toList ⟨"NAME".toList, 3, 9⟩ "Bob".toList
      (by decide)).2 ⟨"NAME".toList, 14, 20⟩ (by decide) (by decide)
    exact h.2.2 (by decide)


/-! ## C5: mustache parsing and preview lemmas -/

theorem splitAtCloseBrace_sound : ∀ (l : Str) (pre post : Str),
    splitAtCloseBrace l = some (pre, post) →
      rbrace ∉ pre ∧ l = pre ++ rbrace :: post := by
  intro l
  induction l with
  | nil => intro pre post h; simp [splitAtCloseBrace] at h
  | cons c rest ih =>
    intro pre post h
    unfold splitAtCloseBrace at h
    by_cases hc : c = rbrace
    · rw [if_pos hc] at h
      cases h
      subst hc
      exact ⟨by simp, rfl⟩
    · rw [if_neg hc] at h
      cases hfind : splitAtCloseBrace rest with
      | none => rw [hfind] at h; simp at h
      | some pp =>
        rw [hfind] at h
        simp only [Option.map_some'] at h
        cases h
        obtain ⟨hmem, heq⟩ := ih pp.1 pp.2 (by rw [hfind])
        constructor
        · intro hin
          rcases List.mem_cons.mp hin with h1 | h1
          · exact hc h1.symm
          · exact hmem h1
        · simp only [List.cons_append]
          exact congrArg (fun t => c :: t) heq

theorem splitAtCloseBrace_append (pre : Str) (post : Str) (h : rbrace ∉ pre) :
    splitAtCloseBrace (pre ++ rbrace :: post) = some (pre, post) := by
  induction pre with
  | nil => simp [splitAtCloseBrace]
  | cons c p ih =>
    have hc : c ≠ rbrace := fun hc => h (by simp [hc])
    simp only [List.cons_append]
    unfold splitAtCloseBrace
    rw [if_neg hc, ih (fun hp => h (by simp [hp]))]
    rfl

theorem mustacheHead_sound (l : Str) (name post2 : Str)
    (h : mustacheHead l = some (name, post2)) :
    l = lbrace :: lbrace :: name ++ rbrace :: rbrace :: post2 ∧
      name ≠ [] ∧ rbrace ∉ name := by
  cases l with
  | nil => simp [mustacheHead] at h
  | cons c rest =>
    cases rest with
    | nil => simp [mustacheHead] at h
    | cons c2 rest2 =>
      simp only [mustacheHead] at h
      by_cases hc : c = lbrace
      · rw [if_pos hc] at h
        by_cases hc2 : c2 = lbrace
        · rw [if_pos hc2] at h
          cases hsplit : splitAtCloseBrace rest2 with
          | none => rw [hsplit] at h; simp at h
          | some np =>
            rw [hsplit] at h
            dsimp only at h
            by_cases hname : np.1 = []
            · rw [if_pos hname] at h; simp at h
            · rw [if_neg hname] at h
              cases hpost : np.2 with
              | nil => rw [hpost] at h; simp at h
              | cons p ppost =>
                rw [hpost] at h
                dsimp only at h
                by_cases hp : p = rbrace
                · rw [if_pos hp] at h
                  simp only [Option.some.injEq, Prod.mk.injEq] at h
                  obtain ⟨h1, h2⟩ := h
                  obtain ⟨hmem, heq⟩ := splitAtCloseBrace_sound rest2 np.1
                    np.2 (by rw [hsplit])
                  subst hc hc2 hp h2
                  subst h1
                  refine ⟨?_, hname, hmem⟩
                  simp only [List.cons_append]
                  congr 2
                  rw [heq, hpost]
                · rw [if_neg hp] at h; simp at h
        · rw [if_neg hc2] at h; simp at h
      · rw [if_neg hc] at h; simp at h

theorem mustacheHead_complete (name : Str) (s : Str) (hname : name ≠ [])
    (hmem : rbrace ∉ name) :
    mustacheHead (lbrace :: lbrace :: name ++ rbrace :: rbrace :: s)
      = some (name, s) := by
  show mustacheHead (lbrace :: lbrace :: (name ++ rbrace :: rbrace :: s))
      = some (name, s)
  simp only [mustacheHead, if_true]
  rw [splitAtCloseBrace_append name (rbrace :: s) hmem]
  dsimp only
  rw [if_neg hname]
  simp

theorem mustacheHead_none_of_ne (c : Char) (rest : Str) (hc : c ≠ lbrace) :
    mustacheHead (c :: rest) = none := by
  cases rest with
  | nil => rfl
  | cons c2 rest2 =>
    simp only [mustacheHead]
    rw [if_neg hc]

theorem mustacheScanFuel_step_none (f : Nat) (c : Char) (rest : Str) (i : Nat)
    (hh : mustacheHead (c :: rest) = none) :
    mustacheScanFuel (f + 1) (c :: rest) i = mustacheScanFuel f rest (i + 1) := by
  conv_lhs => unfold mustacheScanFuel
  rw [hh]

theorem mustacheScanFuel_step_some (f : Nat) (c : Char) (rest : Str) (i : Nat)
    (name post2 : Str) (hh : mustacheHead (c :: rest) = some (name, post2)) :
    mustacheScanFuel (f + 1) (c :: rest) i
      = { rawName := name, startIndex := i, endIndex := i + name.length + 4 } ::
          mustacheScanFuel f post2 (i + name.length + 4) := by
  conv_lhs => unfold mustacheScanFuel
  rw [hh]

theorem mustacheHead_some_length (c : Char) (rest : Str) (name post2 : Str)
    (hh : mustacheHead (c :: rest) = some (name, post2)) :
    rest.length = name.length + post2.length + 3 := by
  obtain ⟨heq, _, _⟩ := mustacheHead_sound (c :: rest) name post2 hh
  have := congrArg List.length heq
  simp only [List.length_cons, List.length_append] at this
  omega

theorem mshiftOcc_mk (i : Nat) (name : Str) (a b : Nat) :
    mshiftOcc i ⟨name, a, b⟩ = ⟨name, a + i, b + i⟩ := rfl

theorem map_mshiftOcc_mshiftOcc (i j : Nat) (l : List MustacheMatch) :
    (l.map (mshiftOcc j)).map (mshiftOcc i) = l.map (mshiftOcc (j + i)) := by
  induction l with
  | nil => rfl
  | cons a l ih =>
    simp only [List.map_cons, ih]
    congr 1
    cases a
    simp only [mshiftOcc_mk, MustacheMatch.mk.injEq]
    refine ⟨trivial, by omega, by omega⟩

theorem mustacheScanFuel_congr : ∀ (f1 f2 : Nat) (l : Str) (i : Nat),
    l.length ≤ f1 → l.length ≤ f2 →
    mustacheScanFuel f1 l i = mustacheScanFuel f2 l i := by
  intro f1
  induction f1 with
  | zero =>
    intro f2 l i h1 _
    have hl : l = [] := List.eq_nil_of_length_eq_zero (by omega)
    subst hl
    cases f2 <;> rfl
  | succ f1 ih =>
    intro f2 l i h1 h2
    cases l with
    | nil => cases f2 <;> rfl
    | cons c rest =>
      cases f2 with
      | zero => simp at h2
      | succ f2 =>
        simp only [List.length_cons] at h1 h2
        cases hh : mustacheHead (c :: rest) with
        | none =>
          rw [mustacheScanFuel_step_none f1 c rest i hh,
            mustacheScanFuel_step_none f2 c rest i hh]
          exact ih f2 rest (i + 1) (by omega) (by omega)
        | some np =>
          have hlen := mustacheHead_some_length c rest np.1 np.2 (by rw [hh])
          rw [mustacheScanFuel_step_some f1 c rest i np.1 np.2 (by rw [hh]),
            mustacheScanFuel_step_some f2 c rest i np.1 np.2 (by rw [hh])]
          exact congrArg _ (ih f2 np.2 _ (by omega) (by omega))

theorem mustacheScanFuel_shift : ∀ (f : Nat) (l : Str) (i : Nat),
    mustacheScanFuel f l i = (mustacheScanFuel f l 0).map (mshiftOcc i) := by
  intro f
  induction f with
  | zero => intro l i; cases l <;> rfl
  | succ f ih =>
    intro l i
    cases l with
    | nil => rfl
    | cons c rest =>
      cases hh : mustacheHead (c :: rest) with
      | none =>
        rw [mustacheScanFuel_step_none f c rest i hh,
          mustacheScanFuel_step_none f c rest 0 hh,
          ih rest (i + 1), ih rest (0 + 1), map_mshiftOcc_mshiftOcc]
        have he : (0 : Nat) + 1 + i = i + 1 := by omega
        rw [he]
      | some np =>
        rw [mustacheScanFuel_step_some f c rest i np.1 np.2 (by rw [hh]),
          mustacheScanFuel_step_some f c rest 0 np.1 np.2 (by rw [hh]),
          ih np.2 (i + np.1.length + 4), ih np.2 (0 + np.1.length + 4),
          List.map_cons, map_mshiftOcc_mshiftOcc]
        congr 1
        · simp only [mshiftOcc_mk, MustacheMatch.mk.injEq]
          refine ⟨trivial, by omega, by omega⟩
        · have he : (0 : Nat) + np.1.length + 4 + i = i + np.1.length + 4 := by
            omega
          rw [he]

theorem parseMustache_step_none (c : Char) (rest : Str)
    (hh : mustacheHead (c :: rest) = none) :
    parseMustache (c :: rest) = (parseMustache rest).map (mshiftOcc 1) := by
  unfold parseMustache
  simp only [List.length_cons]
  rw [mustacheScanFuel_step_none rest.length c rest 0 hh,
    mustacheScanFuel_shift rest.length rest (0 + 1)]

theorem parseMustache_step_some (c : Char) (rest : Str) (name post2 : Str)
    (hh : mustacheHead (c :: rest) = some (name, post2)) :
    parseMustache (c :: rest)
      = { rawName := name, startIndex := 0, endIndex := name.length + 4 } ::
          (parseMustache post2).map (mshiftOcc (name.length + 4)) := by
  have hlen := mustacheHead_some_length c rest name post2 hh
  unfold parseMustache
  simp only [List.length_cons]
  rw [mustacheScanFuel_step_some rest.length c rest 0 name post2 hh,
    mustacheScanFuel_shift rest.length post2 (0 + name.length + 4),
    mustacheScanFuel_congr rest.length post2.length post2 0
      (by omega) (le_refl _)]
  simp only [Nat.zero_add]

theorem parseMustache_no_lbrace_aux : ∀ (f : Nat) (l : Str) (i : Nat),
    lbrace ∉ l → mustacheScanFuel f l i = [] := by
  intro f
  induction f with
  | zero => intro l i _; cases l <;> rfl
  | succ f ih =>
    intro l i hl
    cases l with
    | nil => rfl
    | cons c rest =>
      have hc : c ≠ lbrace := fun h => hl (by simp [h])
      rw [mustacheScanFuel_step_none f c rest i
        (mustacheHead_none_of_ne c rest hc)]
      exact ih rest (i + 1) (fun h => hl (by simp [h]))

theorem parseMustache_no_lbrace (l : Str) (h : lbrace ∉ l) :
    parseMustache l = [] :=
  parseMustache_no_lbrace_aux l.length l 0 h

theorem parseMustache_append_no_lbrace (p : Str) (l : Str) (hp : lbrace ∉ p) :
    parseMustache (p ++ l) = (parseMustache l).map (mshiftOcc p.length) := by
  induction p with
  | nil =>
    simp only [List.nil_append, List.length_nil]
    have hz : ∀ os : List MustacheMatch, os.map (mshiftOcc 0) = os := by
      intro os
      induction os with
      | nil => rfl
      | cons a os ih => simp only [List.map_cons, ih]; congr 1
    exact (hz _).symm
  | cons c p ih =>
    have hc : c ≠ lbrace := fun h => hp (by simp [h])
    simp only [List.cons_append]
    rw [parseMustache_step_none c (p ++ l)
        (mustacheHead_none_of_ne c (p ++ l) hc),
      ih (fun h => hp (by simp [h])), map_mshiftOcc_mshiftOcc]
    simp only [List.length_cons]

theorem parseMustache_single (p name s : Str) (hp : lbrace ∉ p)
    (hs : lbrace ∉ s) (hname : name ≠ []) (hmem : rbrace ∉ name) :
    parseMustache (p ++ (lbrace :: lbrace :: name ++ rbrace :: rbrace :: s))
      = [{ rawName := name, startIndex := p.length,
           endIndex := p.length + name.length + 4 }] := by
  rw [parseMustache_append_no_lbrace p _ hp]
  have hstep := parseMustache_step_some lbrace
    (lbrace :: (name ++ rbrace :: rbrace :: s)) name s
    (mustacheHead_complete name s hname hmem)
  rw [show (lbrace :: lbrace :: name ++ rbrace :: rbrace :: s)
      = lbrace :: lbrace :: (name ++ rbrace :: rbrace :: s) from rfl,
    hstep, parseMustache_no_lbrace s hs]
  simp only [List.map_nil, List.map_cons, mshiftOcc_mk]
  congr 2 <;> omega

theorem getSubstitution_no_dollar (m pre post : Str) :
    ∀ (r : Str), '$' ∉ r → getSubstitution r m pre post = r := by
  intro r
  induction r with
  | nil => intro _; rfl
  | cons c rest ih =>
    intro h
    have hc : c ≠ '$' := fun hcc => h (by simp [hcc])
    conv_lhs => unfold getSubstitution
    rw [if_neg hc, ih (fun hr => h (by simp [hr]))]

theorem firstIndexOf_nil (pat : Str) :
    firstIndexOf [] pat = if pat = [] then some 0 else none := by
  conv_lhs => unfold firstIndexOf

theorem firstIndexOf_cons (c : Char) (rest pat : Str) :
    firstIndexOf (c :: rest) pat
      = if pat.isPrefixOf (c :: rest) then some 0
        else (firstIndexOf rest pat).map (fun n => n + 1) := by
  conv_lhs => unfold firstIndexOf

theorem firstIndexOf_self_append (pat s : Str) :
    firstIndexOf (pat ++ s) pat = some 0 := by
  cases pat with
  | nil =>
    cases s with
    | nil => rfl
    | cons c rest =>
      rw [List.nil_append, firstIndexOf_cons]
      rw [if_pos (List.isPrefixOf_iff_prefix.mpr (List.nil_prefix))]
  | cons c pat2 =>
    show firstIndexOf (c :: (pat2 ++ s)) (c :: pat2) = some 0
    rw [firstIndexOf_cons]
    have hpre : ((c :: pat2).isPrefixOf (c :: (pat2 ++ s))) = true := by
      rw [List.isPrefixOf_iff_prefix, ← List.cons_append]
      exact List.prefix_append _ _
    rw [if_pos hpre]

theorem firstIndexOf_append (c : Char) (pat2 : Str) :
    ∀ (p : Str) (l : Str), c ∉ p →
      firstIndexOf (p ++ l) (c :: pat2)
        = (firstIndexOf l (c :: pat2)).map (fun n => n + p.length) := by
  intro p
  induction p with
  | nil =>
    intro l _
    cases hfind : firstIndexOf l (c :: pat2) <;> simp [hfind]
  | cons d p2 ih =>
    intro l hp
    have hd : c ≠ d := fun h => hp (by simp [h])
    show firstIndexOf (d :: (p2 ++ l)) (c :: pat2) = _
    rw [firstIndexOf_cons]
    have hpre : ((c :: pat2).isPrefixOf (d :: (p2 ++ l))) = false := by
      simp only [List.isPrefixOf]
      rw [beq_eq_false_iff_ne.mpr hd]
      rfl
    rw [hpre]
    simp only [Bool.false_eq_true, if_false]
    rw [ih l (fun h => hp (by simp [h]))]
    cases hfind : firstIndexOf l (c :: pat2) with
    | none => rfl
    | some n =>
      simp only [Option.map_some', Option.some.injEq, List.length_cons]
      omega

theorem replaceFirst_at (p pat s replacement : Str) (c : Char) (pat2 : Str)
    (hpat : pat = c :: pat2) (hp : c ∉ p) (hdollar : '$' ∉ replacement) :
    replaceFirst (p ++ pat ++ s) pat replacement = p ++ replacement ++ s := by
  subst hpat
  unfold replaceFirst
  rw [List.append_assoc,
    firstIndexOf_append c pat2 p ((c :: pat2) ++ s) hp,
    firstIndexOf_self_append (c :: pat2) s]
  simp only [Option.map_some', Nat.zero_add]
  rw [getSubstitution_no_dollar _ _ _ _ hdollar]
  rw [← List.append_assoc]
  have htake : (p ++ (c :: pat2) ++ s).take p.length = p := by
    rw [List.append_assoc, List.take_left]
  have hdrop : (p ++ (c :: pat2) ++ s).drop (p.length + (c :: pat2).length)
      = s := by
    have hlen : p.length + (c :: pat2).length = (p ++ (c :: pat2)).length := by
      simp
    rw [hlen, List.drop_left]
  rw [htake, hdrop]

theorem generatePreview_eq_foldl (value : Str) (vars : List Variable) :
    generatePreview value vars
      = (parseMustache value).foldl (previewStep vars) value := rfl

theorem previewStep_id (vars : List Variable) (preview : Str)
    (m : MustacheMatch)
    (h : trimString m.rawName = [] ∨
      ∀ found, vars.find? (fun v => v.name == trimString m.rawName)
          = some found →
        found.default_value = none ∨ found.default_value = some []) :
    previewStep vars preview m = preview := by
  unfold previewStep
  rcases h with h1 | h2
  · rw [if_pos h1]
  · by_cases hempty : trimString m.rawName = []
    · rw [if_pos hempty]
    · rw [if_neg hempty]
      cases hfind : vars.find? (fun v => v.name == trimString m.rawName) with
      | none => rfl
      | some found =>
        dsimp only
        rcases h2 found hfind with hd | hd
        · rw [hd]
        · rw [hd]
          dsimp only
          rw [if_pos rfl]

/-- C5 counterexample: the text `\x7b\x7b name \x7d\x7d` (interior
whitespace) parses to one occurrence with trimmed name `name`, and the
variable list holds `name` with non-empty value `X` — yet the generated
preview leaves the occurrence verbatim instead of replacing its span with
`X`: the code replaces the first occurrence of the *normalized* string
`\x7b\x7bname\x7d\x7d`, which does not occur in the text. -/
theorem generatePreview_whitespace_not_replaced :
    (parseMustache "\x7b\x7b name \x7d\x7d".toList).map
        (fun m => trimString m.rawName) = ["name".toList] ∧
    generatePreview "\x7b\x7b name \x7d\x7d".toList
        [⟨"i".toList, "name".toList, none, some "X".toList, none,
          "u".toList, [], []⟩]
      = "\x7b\x7b name \x7d\x7d".toList ∧
    "\x7b\x7b name \x7d\x7d".toList ≠ ("X".toList : Str) := by
  refine ⟨?_, ?_, ?_⟩ <;> decide

/-- C5 (amended): preview generation over mustache text.  (1) Occurrences
with no matching variable, or whose matching variable has an empty (or
absent) value, are left verbatim: when every occurrence is such, the
preview equals the text.  (2) An occurrence written exactly as
`\x7b\x7bname\x7d\x7d` (so that its trimmed name equals its raw text)
whose name matches a variable with a non-empty value has its span replaced
by that value (shown here for a text whose only brace characters are the
occurrence's own, and a `$`-free value, since JS `replace` treats `$`
escapes specially).  Occurrences written with interior whitespace such as
`\x7b\x7b name \x7d\x7d` are NOT substituted even when matched — the code
replaces the normalized placeholder string, which does not occur at such a
span (see the counterexample). -/
theorem generatePreview_spec :
    (∀ (value : Str) (vars : List Variable),
      (∀ m ∈ parseMustache value,
        trimString m.rawName = [] ∨
        ∀ found, vars.find? (fun v => v.name == trimString m.rawName)
            = some found →
          found.default_value = none ∨ found.default_value = some []) →
      generatePreview value vars = value) ∧
    (∀ (p name dv s : Str) (vars : List Variable) (found : Variable),
      lbrace ∉ p → lbrace ∉ s → rbrace ∉ name → name ≠ [] →
      trimString name = name →
      vars.find? (fun v => v.name == name) = some found →
      found.default_value = some dv → dv ≠ [] → '$' ∉ dv →
      generatePreview
          (p ++ (lbrace :: lbrace :: name ++ rbrace :: rbrace :: s)) vars
        = p ++ dv ++ s) := by
  constructor
  · intro value vars h
    rw [generatePreview_eq_foldl]
    have aux : ∀ (ms : List MustacheMatch),
        (∀ m ∈ ms, trimString m.rawName = [] ∨
          ∀ found, vars.find? (fun v => v.name == trimString m.rawName)
              = some found →
            found.default_value = none ∨ found.default_value = some []) →
        ∀ (acc : Str), ms.foldl (previewStep vars) acc = acc := by
      intro ms
      induction ms with
      | nil => intro _ acc; rfl
      | cons m rest ih =>
        intro hms acc
        rw [List.foldl_cons, previewStep_id vars acc m (hms m (by simp))]
        exact ih (fun m2 hm2 => hms m2 (by simp [hm2])) acc
    exact aux (parseMustache value) h value
  · intro p name dv s vars found hp hs hmem hname htrim hfind hdv hdvne
      hdollar
    rw [generatePreview_eq_foldl,
      parseMustache_single p name s hp hs hname hmem]
    simp only [List.foldl_cons, List.foldl_nil]
    unfold previewStep
    dsimp only
    rw [htrim, if_neg hname, hfind]
    dsimp only
    rw [hdv]
    dsimp only
    rw [if_neg hdvne]
    have hvalue : p ++ (lbrace :: lbrace :: name ++ rbrace :: rbrace :: s)
        = p ++ (lbrace :: lbrace :: name ++ [rbrace, rbrace]) ++ s := by
      simp only [List.append_assoc, List.cons_append, List.nil_append]
    rw [hvalue]
    exact replaceFirst_at p (lbrace :: lbrace :: name ++ [rbrace, rbrace]) s
      dv lbrace (lbrace :: name ++ [rbrace, rbrace]) rfl hp hdollar

/-- C5 witness: `Hi \x7b\x7bname\x7d\x7d!` with variable `name = Alice`
previews to `Hi Alice!`. -/
theorem generatePreview_spec_witness :
    generatePreview "Hi \x7b\x7bname\x7d\x7d!".toList
        [⟨"i".toList, "name".toList, none, some "Alice".toList, none,
          "u".toList, [], []⟩]
      = "Hi Alice!".toList := by
  have h := generatePreview_spec.2 "Hi ".toList "name".toList
    "Alice".toList "!".toList
    [⟨"i".toList, "name".toList, none, some "Alice".toList, none,
      "u".toList, [], []⟩]
    ⟨"i".toList, "name".toList, none, some "Alice".toList, none,
      "u".toList, [], []⟩
    (by decide) (by decide) (by decide) (by decide) (by decide) (by decide)
    (by decide) (by decide) (by decide)
  have e : "Hi \x7b\x7bname\x7d\x7d!".toList
      = "Hi ".toList ++ (lbrace :: lbrace :: "name".toList
          ++ rbrace :: rbrace :: "!".toList) := by decide
  rw [e, h]
  decide
